import Mathlib

/-!
Shallow embedding of `src/rwse_checker/rwse.py` (the RWSE_Checker class) and
proofs about it.  Python strings are modelled as Lean `String`, Python floats
(model scores, magnitudes) as `ℚ`, the Python dict `confusion_sets` as an
association list in which later entries shadow earlier ones (Python
`dict.update` overwrites), and the fill-mask pipeline as an opaque `Provider`
function supplied as a parameter.  Python exceptions are modelled with
`Except`.
-/

namespace RWSE

/-- Generic mask placeholder, `MASK = "__MASK__"` in rwse.py. -/
def MASK : String := "__MASK__"

/-- One prediction returned by the fill-mask pipeline: the dicts
`{"token_str": ..., "score": ...}` that `check` returns. -/
structure ScoredResult where
  token_str : String
  score : ℚ
deriving DecidableEq

/-- The error conditions raised by rwse.py, one constructor per distinct
`raise` site relevant to the embedded code: the `ValueError` for a confusion
set with fewer than two items (`_process_confusion_set`) and the `ValueError`
for a sentence without the generic placeholder (`replace_generic_mask`).
The spec names these `InvalidConfusionSetError` and
`MissingMaskPlaceholderError`. -/
inductive RWSEError where
  | invalidConfusionSet
  | missingMaskPlaceholder
deriving DecidableEq

/-- The external fill-mask pipeline (`self.pipe`): given the masked sentence
and the target candidate words, it returns scored predictions. -/
abbrev Provider : Type := String → List String → List ScoredResult

/-- Model of Python `str.strip()` on the underlying character list: drop
whitespace from both ends. -/
def pyStrip (s : String) : String :=
  ⟨((s.data.dropWhile Char.isWhitespace).reverse.dropWhile Char.isWhitespace).reverse⟩

/-- Helper for Python's substring test `pat in s`: does `pat` occur as a
contiguous sublist of `l`? -/
def listContainsSub (pat : List Char) : List Char → Bool
  | [] => pat.isPrefixOf []
  | c :: t => pat.isPrefixOf (c :: t) || listContainsSub pat t

/-- Model of Python `pat in s` (substring containment). -/
def pyContains (s pat : String) : Bool :=
  listContainsSub pat.data s.data

/-- Helper for Python `str.replace`: replace every non-overlapping occurrence
of `pat` (scanning left to right) by `rep`, with explicit fuel (one unit per
character consumed). -/
def listReplaceSub (pat rep : List Char) : Nat → List Char → List Char
  | 0, s => s
  | _ + 1, [] => []
  | fuel + 1, c :: t =>
    if pat ≠ [] ∧ pat.isPrefixOf (c :: t) then
      rep ++ listReplaceSub pat rep fuel ((c :: t).drop pat.length)
    else
      c :: listReplaceSub pat rep fuel t

/-- Model of Python `s.replace(pat, rep)` (replace all occurrences). -/
def pyReplace (s pat rep : String) : String :=
  ⟨listReplaceSub pat.data rep.data s.data.length s.data⟩

/-- Model of Python `sep.join(parts)`. -/
def pyJoin (sep : String) : List String → String
  | [] => ""
  | [s] => s
  | s :: rest => s ++ sep ++ pyJoin sep rest

/-- The type of `self.confusion_sets`: a Python dict from word to its
confusion set, modelled as an association list where later entries shadow
earlier ones (`dict.update` overwrites shared keys). -/
abbrev ConfusionDict : Type := List (String × List String)

/-- Dict lookup: the last binding of a key wins (models Python dict access
after a sequence of `update` calls, each modelled as appending entries). -/
def dictFind (d : ConfusionDict) (w : String) : Option (List String) :=
  d.foldl (fun acc kv => if kv.1 = w then some kv.2 else acc) none

/-- The cleaned confusion set computed inside `_process_confusion_set`:
`[item.strip() for item in conf_set if item.strip()]`. -/
def cleanedOf (conf_set : List String) : List String :=
  (conf_set.map pyStrip).filter (fun s => s ≠ "")

/-- The dictionary entries contributed by one valid confusion set:
`{word: cleaned_set for word in cleaned_set}`. -/
def entriesOf (conf_set : List String) : ConfusionDict :=
  (cleanedOf conf_set).map (fun word => (word, cleanedOf conf_set))

/-- `RWSE_Checker._process_confusion_set`: strip every item, drop the empty
ones, raise if fewer than two items remain, and otherwise map every remaining
word to the full cleaned set. -/
def process_confusion_set (conf_set : List String) :
    Except RWSEError ConfusionDict :=
  let cleaned_set := (conf_set.map pyStrip).filter (fun s => s ≠ "")
  if cleaned_set.length < 2 then .error .invalidConfusionSet
  else .ok (cleaned_set.map (fun word => (word, cleaned_set)))

/-- `RWSE_Checker._load_confusion_sets` on an in-memory list of lists:
`result.update(self._process_confusion_set(conf_set))` for each group, with
`update` modelled by appending the new entries (later bindings shadow earlier
ones under `dictFind`). -/
def load_confusion_sets (data : List (List String)) :
    Except RWSEError ConfusionDict :=
  data.foldlM (fun result conf_set =>
    (process_confusion_set conf_set).map (fun m => result ++ m)) []

/-- `RWSE_Checker.in_confusion_sets`: `token in self.confusion_sets`. -/
def in_confusion_sets (cs : ConfusionDict) (token : String) : Bool :=
  (dictFind cs token).isSome

/-- `RWSE_Checker.replace_generic_mask`: raise if the sentence does not
contain `__MASK__`, otherwise replace every occurrence of `__MASK__` by the
model's mask token `mt`. -/
def replace_generic_mask (mt : String) (sentence : String) :
    Except RWSEError String :=
  if ¬ pyContains sentence MASK then .error .missingMaskPlaceholder
  else .ok (pyReplace sentence MASK mt)

/-- `RWSE_Checker.check`: if the token is in no confusion set, return `[]`
without calling the pipeline; otherwise call the pipeline on the sentence
with the generic placeholder replaced, with the token's confusion set as
targets.  (`(dictFind cs token).getD []` models `self.confusion_sets[token]`,
which is only reached when the key is present.) -/
def check (mt : String) (cs : ConfusionDict) (p : Provider)
    (token : String) (masked_sentence : String) :
    Except RWSEError (List ScoredResult) :=
  if ¬ in_confusion_sets cs token then .ok []
  else (replace_generic_mask mt masked_sentence).map
    (fun ms => p ms ((dictFind cs token).getD []))

/-- The masked sentence built inside `check_sentence` for one checked token:
`' '.join([MASK if t == token else t for t in tokens])`. -/
def buildMaskedSentence (tokens : List String) (token : String) : String :=
  pyJoin " " (tokens.map (fun t => if t = token then MASK else t))

/-- The loop of `RWSE_Checker.check_sentence`, iterating over `iter` while
the full token list `tokens` is used to build each masked sentence; a raised
exception aborts the whole loop. -/
def check_sentence_go (mt : String) (cs : ConfusionDict) (p : Provider)
    (tokens : List String) :
    List String → Except RWSEError (List (List ScoredResult))
  | [] => .ok []
  | token :: rest =>
    if in_confusion_sets cs token then
      match check mt cs p token (buildMaskedSentence tokens token) with
      | .error e => .error e
      | .ok token_results =>
        match check_sentence_go mt cs p tokens rest with
        | .error e => .error e
        | .ok results => .ok (token_results :: results)
    else check_sentence_go mt cs p tokens rest

/-- `RWSE_Checker.check_sentence`: check every token of the sentence in
order, skipping tokens that are in no confusion set. -/
def check_sentence (mt : String) (cs : ConfusionDict) (p : Provider)
    (tokens : List String) : Except RWSEError (List (List ScoredResult)) :=
  check_sentence_go mt cs p tokens tokens

/-- The first loop of `RWSE_Checker.correct`: find the score of the first
result whose `token_str` equals the input token (the loop with `break`). -/
def findTargetScore : List ScoredResult → String → Option ℚ
  | [], _ => none
  | r :: rs, token =>
    if r.token_str = token then some r.score else findTargetScore rs token

/-- The second loop of `RWSE_Checker.correct`: starting from
`(best_token, best_score) = (token, target_score)`, replace the best pair by a
candidate whenever `candidate != token and score > threshold and
score > best_score`. -/
def correctLoop (token : String) (threshold : ℚ) :
    List ScoredResult → String × ℚ → String × ℚ
  | [], bs => bs
  | r :: rs, bs =>
    correctLoop token threshold rs
      (if r.token_str ≠ token ∧ threshold < r.score ∧ bs.2 < r.score then
        (r.token_str, r.score)
      else bs)

/-- The decision part of `RWSE_Checker.correct`, applied to the results that
`check` returned: return the token on an empty result list or when the token
is absent from the results, otherwise run the selection loop with
`threshold = min(target_score * magnitude, 1.0)`. -/
def decideCorrection (token : String) (magnitude : ℚ)
    (results : List ScoredResult) : String :=
  if results = [] then token
  else
    match findTargetScore results token with
    | none => token
    | some target_score =>
      let threshold := min (target_score * magnitude) 1
      (correctLoop token threshold results (token, target_score)).1

/-- `RWSE_Checker.correct`: call `check` and decide; a raised exception
propagates. -/
def correct (mt : String) (cs : ConfusionDict) (p : Provider)
    (token : String) (masked_sentence : String) (magnitude : ℚ) :
    Except RWSEError String :=
  (check mt cs p token masked_sentence).map (decideCorrection token magnitude)

/-- Specification-side helper: the candidate with the highest score, the
first encountered on ties (scanning in list order). -/
def firstArgmax : List ScoredResult → Option ScoredResult
  | [] => none
  | r :: rs =>
    match firstArgmax rs with
    | none => some r
    | some m => if r.score < m.score then some m else some r

/-- Specification-side selection as the claim words it: among the candidates
whose word differs from the token and whose score strictly exceeds the
threshold, the one with the highest score (first on ties); the token itself
when no candidate qualifies. -/
def specSelectClaim (token : String) (threshold : ℚ)
    (results : List ScoredResult) : String :=
  match firstArgmax (results.filter
      (fun r => decide (r.token_str ≠ token ∧ threshold < r.score))) with
  | none => token
  | some m => m.token_str

/-- Specification-side selection as amended: among the candidates whose word
differs from the token and whose score strictly exceeds both the threshold
and the self score, the one with the highest score (first on ties); the token
itself when no candidate qualifies. -/
def specSelect (token : String) (threshold selfScore : ℚ)
    (results : List ScoredResult) : String :=
  match firstArgmax (results.filter
      (fun r => decide (r.token_str ≠ token ∧ threshold < r.score ∧
        selfScore < r.score))) with
  | none => token
  | some m => m.token_str

/-! ### Helper lemmas about `firstArgmax` -/

lemma firstArgmax_eq_none {l : List ScoredResult}
    (h : firstArgmax l = none) : l = [] := by
  cases l with
  | nil => rfl
  | cons r rs =>
    exfalso
    simp only [firstArgmax] at h
    cases hrs : firstArgmax rs with
    | none => rw [hrs] at h; simp at h
    | some m => rw [hrs] at h; by_cases hlt : r.score < m.score <;>
        simp [hlt] at h

lemma firstArgmax_mem : ∀ {l : List ScoredResult} {m : ScoredResult},
    firstArgmax l = some m → m ∈ l := by
  intro l
  induction l with
  | nil => intro m h; simp [firstArgmax] at h
  | cons r rs ih =>
    intro m h
    simp only [firstArgmax] at h
    cases hrs : firstArgmax rs with
    | none => rw [hrs] at h; simp at h; simp [h]
    | some m' =>
      rw [hrs] at h
      by_cases hlt : r.score < m'.score
      · simp [hlt] at h
        subst h
        exact List.mem_cons_of_mem _ (ih hrs)
      · simp [hlt] at h
        simp [h]

lemma firstArgmax_le : ∀ {l : List ScoredResult} {m : ScoredResult},
    firstArgmax l = some m → ∀ x ∈ l, x.score ≤ m.score := by
  intro l
  induction l with
  | nil => intro m h; simp [firstArgmax] at h
  | cons r rs ih =>
    intro m h x hx
    simp only [firstArgmax] at h
    cases hrs : firstArgmax rs with
    | none =>
      rw [hrs] at h
      simp at h
      subst h
      rcases List.mem_cons.mp hx with hx | hx
      · simp [hx]
      · rw [firstArgmax_eq_none hrs] at hx; simp at hx
    | some m' =>
      rw [hrs] at h
      by_cases hlt : r.score < m'.score
      · simp [hlt] at h
        subst h
        rcases List.mem_cons.mp hx with hx | hx
        · rw [hx]; exact le_of_lt hlt
        · exact ih hrs x hx
      · simp [hlt] at h
        subst h
        rcases List.mem_cons.mp hx with hx | hx
        · simp [hx]
        · exact le_trans (ih hrs x hx) (not_lt.mp hlt)

lemma firstArgmax_filter_gt {c : ℚ} :
    ∀ {l : List ScoredResult} {m : ScoredResult}, firstArgmax l = some m →
    c < m.score →
    firstArgmax (l.filter (fun r => decide (c < r.score))) = some m := by
  intro l
  induction l with
  | nil => intro m h; simp [firstArgmax] at h
  | cons r rs ih =>
    intro m h hc
    simp only [firstArgmax] at h
    cases hrs : firstArgmax rs with
    | none =>
      rw [hrs] at h
      simp at h
      subst h
      rw [firstArgmax_eq_none hrs]
      rw [List.filter_cons_of_pos (by simpa using hc)]
      simp [firstArgmax]
    | some m' =>
      rw [hrs] at h
      by_cases hlt : r.score < m'.score
      · simp [hlt] at h
        subst h
        have ihm := ih hrs hc
        by_cases hr : c < r.score
        · rw [List.filter_cons_of_pos (by simpa using hr)]
          simp only [firstArgmax]
          rw [ihm]
          simp [hlt]
        · rw [List.filter_cons_of_neg (by simpa using hr)]
          exact ihm
      · simp [hlt] at h
        subst h
        rw [List.filter_cons_of_pos (by simpa using hc)]
        simp only [firstArgmax]
        cases hF : firstArgmax (rs.filter (fun r => decide (c < r.score))) with
        | none => rfl
        | some m'' =>
          have hm'' : m'' ∈ rs :=
            List.mem_of_mem_filter (firstArgmax_mem hF)
          have hle : m''.score ≤ r.score :=
            le_trans (firstArgmax_le hrs m'' hm'') (not_lt.mp hlt)
          simp [not_lt.mpr hle]

lemma firstArgmax_of_filter_gt {c : ℚ} :
    ∀ {l : List ScoredResult} {m : ScoredResult},
    firstArgmax (l.filter (fun r => decide (c < r.score))) = some m →
    firstArgmax l = some m := by
  intro l
  induction l with
  | nil => intro m h; simp [firstArgmax] at h
  | cons r rs ih =>
    intro m h
    by_cases hr : c < r.score
    · rw [List.filter_cons_of_pos (by simpa using hr)] at h
      simp only [firstArgmax] at h
      cases hF : firstArgmax (rs.filter (fun r => decide (c < r.score))) with
      | none =>
        rw [hF] at h
        simp at h
        subst h
        have hall := List.filter_eq_nil_iff.mp (firstArgmax_eq_none hF)
        simp only [firstArgmax]
        cases hrs : firstArgmax rs with
        | none => rfl
        | some m' =>
          have hm' : m' ∈ rs := firstArgmax_mem hrs
          have h1 : ¬ c < m'.score := by simpa using hall m' hm'
          have h2 : m'.score < r.score := lt_of_le_of_lt (not_lt.mp h1) hr
          simp [not_lt.mpr (le_of_lt h2)]
      | some m'' =>
        rw [hF] at h
        have hrs := ih hF
        simp only [firstArgmax, hrs]
        exact h
    · rw [List.filter_cons_of_neg (by simpa using hr)] at h
      have hrs := ih h
      have hm : m ∈ rs.filter (fun r => decide (c < r.score)) :=
        firstArgmax_mem h
      have hcm : c < m.score := by
        have := (List.mem_filter.mp hm).2
        simpa using this
      have hrm : r.score < m.score := lt_of_le_of_lt (not_lt.mp hr) hcm
      simp only [firstArgmax, hrs, if_pos hrm]

/-! ### Characterization of the selection loop of `correct` -/

lemma correctLoop_eq (token : String) (thr : ℚ) :
    ∀ (rs : List ScoredResult) (b : String) (s : ℚ),
    correctLoop token thr rs (b, s) =
      match firstArgmax (rs.filter (fun r =>
          decide (r.token_str ≠ token ∧ thr < r.score ∧ s < r.score))) with
      | none => (b, s)
      | some m => (m.token_str, m.score) := by
  intro rs
  induction rs with
  | nil => intro b s; simp [correctLoop, firstArgmax]
  | cons r rs ih =>
    intro b s
    by_cases hC : r.token_str ≠ token ∧ thr < r.score ∧ s < r.score
    · have hs : s < r.score := hC.2.2
      rw [show correctLoop token thr (r :: rs) (b, s) =
          correctLoop token thr rs (r.token_str, r.score) by
        simp [correctLoop, hC]]
      rw [ih]
      rw [List.filter_cons_of_pos (by simpa using hC)]
      have hcomp : rs.filter (fun x =>
            decide (x.token_str ≠ token ∧ thr < x.score ∧ r.score < x.score)) =
          (rs.filter (fun x =>
            decide (x.token_str ≠ token ∧ thr < x.score ∧ s < x.score))).filter
            (fun x => decide (r.score < x.score)) := by
        rw [List.filter_filter]
        apply List.filter_congr
        intro a _
        by_cases h1 : r.score < a.score
        · have h2 : s < a.score := lt_trans hs h1
          simp [h1, h2]
        · simp [h1]
      cases hL : firstArgmax (rs.filter (fun x =>
          decide (x.token_str ≠ token ∧ thr < x.score ∧ s < x.score))) with
      | none =>
        rw [hcomp, firstArgmax_eq_none hL]
        simp [firstArgmax]
      | some m =>
        by_cases hlt : r.score < m.score
        · rw [hcomp, firstArgmax_filter_gt hL hlt]
          simp only [firstArgmax]
          rw [hL]
          simp [hlt]
        · have hnil : (rs.filter (fun x =>
              decide (x.token_str ≠ token ∧ thr < x.score ∧ s < x.score))).filter
                (fun x => decide (r.score < x.score)) = [] := by
            rw [List.filter_eq_nil_iff]
            intro a ha
            have := firstArgmax_le hL a ha
            simp only [decide_eq_true_eq]
            exact not_lt.mpr (le_trans this (not_lt.mp hlt))
          rw [hcomp, hnil]
          simp only [firstArgmax]
          rw [hL]
          simp [hlt]
    · rw [show correctLoop token thr (r :: rs) (b, s) =
          correctLoop token thr rs (b, s) by
        simp [correctLoop, hC]]
      rw [ih]
      rw [List.filter_cons_of_neg (by simpa using hC)]

/-! ### Lemmas about `findTargetScore` and `decideCorrection` -/

lemma findTargetScore_mem :
    ∀ {results : List ScoredResult} {token : String} {s₀ : ℚ},
    findTargetScore results token = some s₀ →
    ∃ r ∈ results, r.token_str = token ∧ r.score = s₀ := by
  intro results
  induction results with
  | nil => intro token s₀ h; simp [findTargetScore] at h
  | cons r rs ih =>
    intro token s₀ h
    simp only [findTargetScore] at h
    by_cases he : r.token_str = token
    · rw [if_pos he] at h
      simp at h
      exact ⟨r, List.mem_cons_self r rs, he, h⟩
    · rw [if_neg he] at h
      obtain ⟨x, hx, hxt, hxs⟩ := ih h
      exact ⟨x, List.mem_cons_of_mem _ hx, hxt, hxs⟩

lemma findTargetScore_ne_nil {results : List ScoredResult} {token : String}
    {s₀ : ℚ} (h : findTargetScore results token = some s₀) : results ≠ [] := by
  intro he
  subst he
  simp [findTargetScore] at h

lemma decideCorrection_eq {token : String} {m : ℚ}
    {results : List ScoredResult} {s₀ : ℚ}
    (h : findTargetScore results token = some s₀) :
    decideCorrection token m results =
      specSelect token (min (s₀ * m) 1) s₀ results := by
  simp only [decideCorrection, h, if_neg (findTargetScore_ne_nil h)]
  rw [correctLoop_eq]
  unfold specSelect
  cases firstArgmax (results.filter (fun r =>
      decide (r.token_str ≠ token ∧ min (s₀ * m) 1 < r.score ∧
        s₀ < r.score))) <;> rfl

/-! ### Lemmas about the dictionary model -/

lemma dictFind_foldl_init (w : String) :
    ∀ (l : ConfusionDict) (a : Option (List String)),
    l.foldl (fun acc kv => if kv.1 = w then some kv.2 else acc) a =
      match dictFind l w with
      | some v => some v
      | none => a := by
  intro l
  induction l with
  | nil => intro a; simp [dictFind]
  | cons kv t ih =>
    intro a
    simp only [dictFind, List.foldl_cons]
    rw [ih, ih]
    cases hT : t.foldl
        (fun acc kv => if kv.1 = w then some kv.2 else acc) none with
    | some v =>
      have : dictFind t w = some v := hT
      rw [this]
    | none =>
      have : dictFind t w = none := hT
      rw [this]
      by_cases hk : kv.1 = w <;> simp [hk]

lemma dictFind_append (d e : ConfusionDict) (w : String) :
    dictFind (d ++ e) w =
      match dictFind e w with
      | some v => some v
      | none => dictFind d w := by
  show (d ++ e).foldl _ none = _
  rw [List.foldl_append]
  exact dictFind_foldl_init w e _

lemma dictFind_const_val (w : String) (c : List String) :
    ∀ (keys : List String) (a : Option (List String)),
    (keys.map (fun v => (v, c))).foldl
        (fun acc kv => if kv.1 = w then some kv.2 else acc) a =
      if w ∈ keys then some c else a := by
  intro keys
  induction keys with
  | nil => intro a; simp
  | cons k t ih =>
    intro a
    simp only [List.map_cons, List.foldl_cons]
    rw [ih]
    by_cases hk : k = w
    · by_cases hm : w ∈ t <;> simp [List.mem_cons, hk, hm]
    · by_cases hm : w ∈ t <;> simp [List.mem_cons, hk, hm, Ne.symm hk]

lemma dictFind_entriesOf_of_mem {g : List String} {w : String}
    (hw : w ∈ cleanedOf g) :
    dictFind (entriesOf g) w = some (cleanedOf g) := by
  show (entriesOf g).foldl _ none = _
  unfold entriesOf
  rw [dictFind_const_val]
  simp [hw]

lemma dictFind_entriesOf_of_not_mem {g : List String} {w : String}
    (hw : w ∉ cleanedOf g) :
    dictFind (entriesOf g) w = none := by
  show (entriesOf g).foldl _ none = _
  unfold entriesOf
  rw [dictFind_const_val]
  simp [hw]

lemma process_confusion_set_err {g : List String}
    (h : (cleanedOf g).length < 2) :
    process_confusion_set g = Except.error RWSEError.invalidConfusionSet := by
  unfold process_confusion_set
  unfold cleanedOf at h
  rw [if_pos h]

lemma process_confusion_set_ok {g : List String}
    (h : ¬ (cleanedOf g).length < 2) :
    process_confusion_set g = .ok (entriesOf g) := by
  unfold process_confusion_set entriesOf cleanedOf at *
  rw [if_neg h]

lemma load_confusion_sets_go :
    ∀ (data : List (List String)), (∀ g ∈ data, ¬ (cleanedOf g).length < 2) →
    ∀ (acc : ConfusionDict),
    data.foldlM (fun result conf_set =>
        (process_confusion_set conf_set).map (fun m => result ++ m)) acc =
      .ok (acc ++ (data.map entriesOf).flatten) := by
  intro data
  induction data with
  | nil =>
    intro _ acc
    simp only [List.foldlM_nil, List.map_nil, List.flatten_nil, List.append_nil]
    rfl
  | cons g t ih =>
    intro h acc
    rw [List.foldlM_cons]
    rw [process_confusion_set_ok (h g (List.mem_cons_self g t))]
    show List.foldlM _ (acc ++ entriesOf g) t = _
    rw [ih (fun g' hg' => h g' (List.mem_cons_of_mem _ hg'))]
    simp [List.append_assoc]

lemma load_confusion_sets_ok {data : List (List String)}
    (h : ∀ g ∈ data, ¬ (cleanedOf g).length < 2) :
    load_confusion_sets data = .ok ((data.map entriesOf).flatten) := by
  unfold load_confusion_sets
  rw [load_confusion_sets_go data h []]
  rfl

lemma dictFind_flatten_none {w : String} :
    ∀ {L : List (List String)}, (∀ g ∈ L, w ∉ cleanedOf g) →
    dictFind ((L.map entriesOf).flatten) w = none := by
  intro L
  induction L with
  | nil => intro _; rfl
  | cons g t ih =>
    intro h
    simp only [List.map_cons, List.flatten_cons]
    rw [dictFind_append]
    rw [ih (fun g' hg' => h g' (List.mem_cons_of_mem _ hg'))]
    exact dictFind_entriesOf_of_not_mem (h g (List.mem_cons_self g t))

lemma dictFind_flatten_last {w : String} :
    ∀ {L : List (List String)} (i : Nat) (hi : i < L.length),
    w ∈ cleanedOf (L.get ⟨i, hi⟩) →
    (∀ j (hj : j < L.length), i < j → w ∉ cleanedOf (L.get ⟨j, hj⟩)) →
    dictFind ((L.map entriesOf).flatten) w =
      some (cleanedOf (L.get ⟨i, hi⟩)) := by
  intro L
  induction L with
  | nil => intro i hi; exact absurd hi (by simp)
  | cons g t ih =>
    intro i hi hw hlast
    simp only [List.map_cons, List.flatten_cons]
    rw [dictFind_append]
    cases i with
    | zero =>
      have hnone : dictFind ((t.map entriesOf).flatten) w = none := by
        apply dictFind_flatten_none
        intro g' hg'
        obtain ⟨⟨j, hj⟩, hgj⟩ := List.mem_iff_get.mp hg'
        have := hlast (j + 1) (by simpa using Nat.succ_lt_succ hj)
          (Nat.succ_pos j)
        rw [← hgj]
        simpa using this
      rw [hnone]
      exact dictFind_entriesOf_of_mem hw
    | succ i' =>
      have hi' : i' < t.length := by simpa using Nat.lt_of_succ_lt_succ hi
      have hw' : w ∈ cleanedOf (t.get ⟨i', hi'⟩) := by simpa using hw
      have hlast' : ∀ j (hj : j < t.length), i' < j →
          w ∉ cleanedOf (t.get ⟨j, hj⟩) := by
        intro j hj hij
        have := hlast (j + 1) (by simpa using Nat.succ_lt_succ hj)
          (Nat.succ_lt_succ hij)
        simpa using this
      rw [ih i' hi' hw' hlast']
      simp

/-! ### The generic placeholder is present in every built masked sentence -/

lemma listContainsSub_of_isInfix : ∀ {l pat : List Char}, pat <:+: l →
    listContainsSub pat l = true := by
  intro l
  induction l with
  | nil =>
    intro pat h
    obtain ⟨s, u, hsu⟩ := h
    simp only [List.append_eq_nil] at hsu
    rw [hsu.1.2]
    rfl
  | cons c t ih =>
    intro pat h
    simp only [listContainsSub, Bool.or_eq_true]
    obtain ⟨s, u, hsu⟩ := h
    cases s with
    | nil =>
      left
      rw [ List.isPrefixOf_iff_prefix]
      exact ⟨u, by simpa using hsu⟩
    | cons c' s' =>
      right
      apply ih
      injection hsu with h1 h2
      exact ⟨s', u, h2⟩

lemma isInfix_pyJoin {x : String} (sep : String) :
    ∀ {parts : List String}, x ∈ parts →
    x.data <:+: (pyJoin sep parts).data := by
  intro parts
  induction parts with
  | nil => intro h; simp at h
  | cons y rest ih =>
    intro h
    rcases List.mem_cons.mp h with h | h
    · subst h
      cases rest with
      | nil => exact List.infix_refl _
      | cons z zs =>
        show x.data <:+: ((x ++ sep) ++ pyJoin sep (z :: zs)).data
        rw [String.data_append, String.data_append]
        exact (( List.prefix_append x.data sep.data).trans
          ( List.prefix_append _ _)).isInfix
    · cases rest with
      | nil => simp at h
      | cons z zs =>
        show x.data <:+: ((y ++ sep) ++ pyJoin sep (z :: zs)).data
        rw [String.data_append]
        exact (ih h).trans (List.suffix_append _ _).isInfix

lemma pyContains_buildMaskedSentence {tokens : List String} {token : String}
    (h : token ∈ tokens) :
    pyContains (buildMaskedSentence tokens token) MASK = true := by
  unfold pyContains buildMaskedSentence
  apply listContainsSub_of_isInfix
  apply isInfix_pyJoin
  exact List.mem_map.mpr ⟨token, h, by simp⟩

/-! ### Characterization of `check_sentence` -/

lemma check_aux {mt : String} {cs : ConfusionDict} {p : Provider}
    {token s : String} (hmem : in_confusion_sets cs token = true)
    (hmask : pyContains s MASK = true) :
    check mt cs p token s =
      .ok (p (pyReplace s MASK mt) ((dictFind cs token).getD [])) := by
  unfold check replace_generic_mask
  simp [hmem, hmask, Except.map]

lemma check_sentence_go_eq (mt : String) (cs : ConfusionDict) (p : Provider)
    (tokens : List String) :
    ∀ (iter : List String), (∀ t ∈ iter, t ∈ tokens) →
    check_sentence_go mt cs p tokens iter =
      .ok ((iter.filter (fun t => in_confusion_sets cs t)).map
        (fun token => p (pyReplace (buildMaskedSentence tokens token) MASK mt)
          ((dictFind cs token).getD []))) := by
  intro iter
  induction iter with
  | nil => intro _; rfl
  | cons token rest ih =>
    intro hsub
    have hrest := ih (fun t ht => hsub t (List.mem_cons_of_mem _ ht))
    by_cases hmem : in_confusion_sets cs token = true
    · have hmask := pyContains_buildMaskedSentence
        (hsub token (List.mem_cons_self _ _))
      rw [show check_sentence_go mt cs p tokens (token :: rest) =
          match check mt cs p token (buildMaskedSentence tokens token) with
          | .error e => .error e
          | .ok token_results =>
            match check_sentence_go mt cs p tokens rest with
            | .error e => .error e
            | .ok results => .ok (token_results :: results) by
        simp [check_sentence_go, hmem]]
      rw [check_aux hmem hmask, hrest]
      rw [List.filter_cons_of_pos (by simpa using hmem)]
      rfl
    · rw [show check_sentence_go mt cs p tokens (token :: rest) =
          check_sentence_go mt cs p tokens rest by
        simp [check_sentence_go, hmem]]
      rw [hrest]
      rw [List.filter_cons_of_neg (by simpa using hmem)]

/-! ### Concrete fixtures used by witnesses and counterexamples -/

/-- Dictionary built from the single confusion set ["a", "b"]. -/
def abDict : ConfusionDict := [("a", ["a", "b"]), ("b", ["a", "b"])]

/-- Provider returning scores a = 3, b = 2 regardless of the query. -/
def abProv32 : Provider := fun _ _ => [⟨"a", 3⟩, ⟨"b", 2⟩]

/-- Provider returning scores a = 1, b = 5 regardless of the query. -/
def abProv15 : Provider := fun _ _ => [⟨"a", 1⟩, ⟨"b", 5⟩]

/-- Dictionary built from the single confusion set ["to", "too"]. -/
def toDict : ConfusionDict := [("to", ["to", "too"]), ("too", ["to", "too"])]

/-- Spy provider echoing the sentence it receives as its only prediction. -/
def spyProv : Provider := fun s _ => [⟨s, 0⟩]

/-- Dictionary built from the confusion set ["their", "there"]. -/
def theirDict : ConfusionDict :=
  [("their", ["their", "there"]), ("there", ["their", "there"])]

/-- Provider returning the spec's concrete scenario scores,
their = 0.50 and there = 0.01. -/
def theirProv : Provider := fun _ _ => [⟨"their", 1/2⟩, ⟨"there", 1/100⟩]

/-- Declared groups of the repository's own tests,
[["their","there"],["to","too","two"]]. -/
def exData : List (List String) := [["their", "there"], ["to", "too", "two"]]

/-! ### Claim C2 -/

/-- C2: for every token that is in no confusion set, `check` returns the
empty list for every sentence and — since the statement holds for every
provider — without the score provider ever influencing (being invoked for)
the result; the membership miss is an ordinary `.ok` result, not an error. -/
theorem C2_membership_miss (mt : String) (cs : ConfusionDict) (p : Provider)
    (token masked_sentence : String)
    (h : in_confusion_sets cs token = false) :
    check mt cs p token masked_sentence = Except.ok [] := by
  simp [check, h]

/-- Witness for C2 at a concrete input: "xyz" is in no confusion set. -/
theorem C2_membership_miss_witness :
    check "[MASK]" abDict abProv32 "xyz" "no mask" = Except.ok [] :=
  C2_membership_miss "[MASK]" abDict abProv32 "xyz" "no mask" (by decide)

/-! ### Claim C3 -/

/-- C3: for every token present in the registry and every sentence that does
not contain the generic placeholder, `check` — and hence `correct` — fails
with the missing-placeholder error for every provider (so the provider is
never consulted); the embedding being pure, the error is confined to the
result of that call. -/
theorem C3_missing_mask (mt : String) (cs : ConfusionDict) (p : Provider)
    (token masked_sentence : String) (magnitude : ℚ)
    (hmem : in_confusion_sets cs token = true)
    (hmask : pyContains masked_sentence MASK = false) :
    check mt cs p token masked_sentence =
      Except.error RWSEError.missingMaskPlaceholder ∧
    correct mt cs p token masked_sentence magnitude =
      Except.error RWSEError.missingMaskPlaceholder := by
  have hc : check mt cs p token masked_sentence =
      Except.error RWSEError.missingMaskPlaceholder := by
    simp [check, replace_generic_mask, hmem, hmask, Except.map]
  exact ⟨hc, by simp [correct, hc, Except.map]⟩

/-- Witness for C3 at a concrete input: "a" is registered but the sentence
has no "__MASK__" placeholder. -/
theorem C3_missing_mask_witness :
    check "[MASK]" abDict abProv32 "a" "no placeholder here" =
      Except.error RWSEError.missingMaskPlaceholder ∧
    correct "[MASK]" abDict abProv32 "a" "no placeholder here" 10 =
      Except.error RWSEError.missingMaskPlaceholder :=
  C3_missing_mask "[MASK]" abDict abProv32 "a" "no placeholder here" 10
    (by decide) (by decide)

/-! ### Claim C5 -/

/-- C5 counterexample: the group ["a", " a "] cleans to ["a", "a"], which has
two entries but only one distinct member.  The claim requires construction to
fail with the invalid-confusion-set error for fewer than two **distinct**
members, yet `process_confusion_set` succeeds, because the code counts the
cleaned entries with multiplicity. -/
theorem C5_counterexample :
    process_confusion_set ["a", " a "] =
      Except.ok [("a", ["a", "a"]), ("a", ["a", "a"])] ∧
    (cleanedOf ["a", " a "]).dedup.length < 2 := by
  constructor
  · rfl
  · decide

/-- C5 (amended): registry construction trims each entry and drops empties,
and fails with the invalid-confusion-set error exactly when fewer than two
non-empty entries remain after cleaning, the entries counted with
multiplicity (distinctness is not required); otherwise it registers every
remaining word to the full cleaned group. -/
theorem C5_amended (g : List String) :
    (process_confusion_set g = Except.error RWSEError.invalidConfusionSet ↔
      (cleanedOf g).length < 2) ∧
    (process_confusion_set g = Except.error RWSEError.invalidConfusionSet ∨
      process_confusion_set g = Except.ok (entriesOf g)) := by
  by_cases h : (cleanedOf g).length < 2
  · exact ⟨⟨fun _ => h, fun _ => process_confusion_set_err h⟩,
      Or.inl (process_confusion_set_err h)⟩
  · refine ⟨⟨fun he => ?_, fun hlt => absurd hlt h⟩,
      Or.inr (process_confusion_set_ok h)⟩
    rw [process_confusion_set_ok h] at he
    exact Except.noConfusion he

/-! ### Claim C7 -/

/-- C7 counterexample: with tokens ["to", "go", "to"] and "to" a registered
token, the sentence built for each of the two "to" positions masks **both**
positions, not exactly the single checked one; the spy provider, which echoes
the sentence it receives, confirms that both `check` calls see the doubly
masked sentence.  The single-position sentence the claim prescribes for the
first position would be "__MASK__ go to". -/
theorem C7_counterexample :
    buildMaskedSentence ["to", "go", "to"] "to" = "__MASK__ go __MASK__" ∧
    check_sentence "[MASK]" toDict spyProv ["to", "go", "to"] =
      Except.ok [[⟨"[MASK] go [MASK]", 0⟩], [⟨"[MASK] go [MASK]", 0⟩]] ∧
    buildMaskedSentence ["to", "go", "to"] "to" ≠ pyJoin " " ["__MASK__", "go", "to"] := by
  refine ⟨rfl, rfl, by decide⟩

/-- C7 (amended): `check_sentence` produces, in order, one entry per position
whose token is a confusion-set member (positions not in any confusion set
produce no entry, so the output may be shorter than the input), and for each
such position it calls `check` on the sentence in which **every** position
holding a token equal to the checked token is masked — exactly the checked
position only when that token value occurs once; each output entry is the
provider's prediction list for that masked sentence. -/
theorem C7_amended (mt : String) (cs : ConfusionDict) (p : Provider)
    (tokens : List String) :
    check_sentence mt cs p tokens =
      Except.ok ((tokens.filter (fun t => in_confusion_sets cs t)).map
        (fun token => p (pyReplace (buildMaskedSentence tokens token) MASK mt)
          ((dictFind cs token).getD []))) :=
  check_sentence_go_eq mt cs p tokens tokens (fun _ ht => ht)

/-! ### Claim C9 -/

/-- C9: `correct` is deterministic — its decision is a function of the token,
the sentence, the magnitude and the provider's score lists alone, so two
providers that return identical score lists yield identical decisions on
identical inputs. -/
theorem C9_deterministic (mt : String) (cs : ConfusionDict) (p₁ p₂ : Provider)
    (token masked_sentence : String) (magnitude : ℚ)
    (hp : ∀ s c, p₁ s c = p₂ s c) :
    correct mt cs p₁ token masked_sentence magnitude =
      correct mt cs p₂ token masked_sentence magnitude := by
  have : p₁ = p₂ := funext fun s => funext fun c => hp s c
  rw [this]

/-- Witness for C9 at a concrete input: two syntactically different but
extensionally equal providers give the same decision. -/
theorem C9_deterministic_witness :
    correct "[MASK]" abDict (fun _ _ => [⟨"a", 1⟩]) "a" "x __MASK__ y" 10 =
      correct "[MASK]" abDict
        (fun _ c => if c = [] then [⟨"a", 1⟩] else [⟨"a", 1⟩])
        "a" "x __MASK__ y" 10 :=
  C9_deterministic "[MASK]" abDict _ _ "a" "x __MASK__ y" 10
    (fun _ _ => (ite_self _).symm)

/-! ### Claim C1 -/

/-- Provider returning probability-style scores a = 0.5, b = 0.3. -/
def abProvHalf : Provider := fun _ _ => [⟨"a", 1/2⟩, ⟨"b", 3/10⟩]

/-- C1 counterexample: with candidate scores a = 0.5, b = 0.3 and
magnitude 0 the threshold is min(0.5·0, 1) = 0, so by the claim's own
selection rule (`specSelectClaim`: word ≠ token and score strictly above the
threshold — exactly the reading the spec spells out for magnitude ≤ 0) the
candidate "b" qualifies and is chosen; but `correct` returns "a", because
the loop additionally requires a candidate to beat the running best score,
which starts at the self score 0.5.  So `correct` does not choose the best
among all candidates above the threshold. -/
theorem C1_counterexample :
    correct "[MASK]" abDict abProvHalf "a" "x __MASK__ y" 0 = Except.ok "a" ∧
    specSelectClaim "a" (min ((1/2 : ℚ) * 0) 1)
      [⟨"a", 1/2⟩, ⟨"b", 3/10⟩] = "b" ∧
    ("a" : String) ≠ "b" := by
  refine ⟨?_, ?_, by decide⟩
  · have h1 : pyContains "x __MASK__ y" MASK = true := by decide
    simp [correct, check, in_confusion_sets, dictFind, abDict, abProvHalf,
      replace_generic_mask, h1, Except.map, decideCorrection, findTargetScore,
      correctLoop]
    norm_num
  · have h2 : min ((1/2 : ℚ) * 0) 1 = 0 := by norm_num
    rw [h2]
    simp [specSelectClaim, firstArgmax, List.filter]

/-- C1 (amended): whenever `check` returns a score list in which the token
appears — `s₀` being the score of its first occurrence — `correct` computes
threshold = min(s₀ · magnitude, 1) and returns the `specSelect` choice:
among all candidates whose word differs from the token and whose score is
strictly greater than **both** the threshold **and** the self score `s₀`,
the one with the highest score, ties keeping the first encountered in
provider order; if no such candidate exists, the decision is the original
token. -/
theorem C1_amended (mt : String) (cs : ConfusionDict) (p : Provider)
    (token masked_sentence : String) (magnitude : ℚ)
    (results : List ScoredResult) (s₀ : ℚ)
    (hcheck : check mt cs p token masked_sentence = Except.ok results)
    (hself : findTargetScore results token = some s₀) :
    correct mt cs p token masked_sentence magnitude =
      Except.ok (specSelect token (min (s₀ * magnitude) 1) s₀ results) := by
  unfold correct
  rw [hcheck]
  show Except.ok (decideCorrection token magnitude results) = _
  rw [decideCorrection_eq hself]

/-- Witness for C1 (amended) at a concrete input: scores a = 1, b = 5,
magnitude 2, threshold min(1·2, 1) = 1; the selection picks "b". -/
theorem C1_amended_witness :
    check "[MASK]" abDict abProv15 "a" "x __MASK__ y" =
      Except.ok [⟨"a", 1⟩, ⟨"b", 5⟩] ∧
    findTargetScore [⟨"a", 1⟩, ⟨"b", 5⟩] "a" = some 1 ∧
    correct "[MASK]" abDict abProv15 "a" "x __MASK__ y" 2 =
      Except.ok (specSelect "a" (min ((1 : ℚ) * 2) 1) 1 [⟨"a", 1⟩, ⟨"b", 5⟩]) :=
  ⟨rfl, rfl,
    C1_amended "[MASK]" abDict abProv15 "a" "x __MASK__ y" 2
      [⟨"a", 1⟩, ⟨"b", 5⟩] 1 rfl rfl⟩

/-! ### Claim C4 -/

/-- C4: with a provider whose scores are non-negative (the spec's contract
for scores), acceptance of an alternative by `correct` is antitone in the
magnitude: for m₁ ≤ m₂, any alternative accepted (returned) at m₂ is also
accepted at m₁, and any alternative rejected at m₁ is also rejected at m₂. -/
theorem C4_magnitude_antitone (mt : String) (cs : ConfusionDict) (p : Provider)
    (token masked_sentence : String) (m₁ m₂ : ℚ) (w : String)
    (hscores : ∀ s c r, r ∈ p s c → 0 ≤ r.score)
    (hm : m₁ ≤ m₂) (hw : w ≠ token) :
    (correct mt cs p token masked_sentence m₂ = Except.ok w →
      correct mt cs p token masked_sentence m₁ = Except.ok w) ∧
    (correct mt cs p token masked_sentence m₁ ≠ Except.ok w →
      correct mt cs p token masked_sentence m₂ ≠ Except.ok w) := by
  have hfirst : correct mt cs p token masked_sentence m₂ = Except.ok w →
      correct mt cs p token masked_sentence m₁ = Except.ok w := by
    intro hacc
    unfold correct at hacc ⊢
    cases hchk : check mt cs p token masked_sentence with
    | error e => rw [hchk] at hacc; exact absurd hacc (by simp [Except.map])
    | ok results =>
      rw [hchk] at hacc
      have hdc : decideCorrection token m₂ results = w := by
        simpa [Except.map] using hacc
      have hres : results = [] ∨
          results = p (pyReplace masked_sentence MASK mt)
            ((dictFind cs token).getD []) := by
        unfold check at hchk
        by_cases hmem : in_confusion_sets cs token = true
        · unfold replace_generic_mask at hchk
          by_cases hmask : pyContains masked_sentence MASK = true
          · right
            simp [hmem, hmask, Except.map] at hchk
            exact hchk.symm
          · exfalso
            simp [hmem, hmask, Except.map] at hchk
        · left
          simp [hmem] at hchk
          exact hchk
      cases hfind : findTargetScore results token with
      | none =>
        exfalso
        apply hw
        rw [← hdc]
        unfold decideCorrection
        by_cases hnil : results = []
        · simp [hnil]
        · simp [hnil, hfind]
      | some s₀ =>
        have h0 : 0 ≤ s₀ := by
          obtain ⟨r, hr, hrt, hrs⟩ := findTargetScore_mem hfind
          rcases hres with hres | hres
          · rw [hres] at hr; simp at hr
          · rw [hres] at hr
            rw [← hrs]
            exact hscores _ _ r hr
        rw [decideCorrection_eq hfind] at hdc
        unfold specSelect at hdc
        have hthr : min (s₀ * m₁) 1 ≤ min (s₀ * m₂) 1 :=
          min_le_min (mul_le_mul_of_nonneg_left hm h0) le_rfl
        cases hF : firstArgmax (results.filter (fun r =>
            decide (r.token_str ≠ token ∧ min (s₀ * m₂) 1 < r.score ∧
              s₀ < r.score))) with
        | none => rw [hF] at hdc; exact absurd hdc.symm hw
        | some b =>
          rw [hF] at hdc
          have hcomp : results.filter (fun r =>
                decide (r.token_str ≠ token ∧ min (s₀ * m₂) 1 < r.score ∧
                  s₀ < r.score)) =
              (results.filter (fun r =>
                decide (r.token_str ≠ token ∧ min (s₀ * m₁) 1 < r.score ∧
                  s₀ < r.score))).filter
                (fun r => decide (min (s₀ * m₂) 1 < r.score)) := by
            rw [List.filter_filter]
            apply List.filter_congr
            intro a _
            by_cases h1 : min (s₀ * m₂) 1 < a.score
            · have h2 : min (s₀ * m₁) 1 < a.score := lt_of_le_of_lt hthr h1
              simp [h1, h2]
            · simp [h1]
          rw [hcomp] at hF
          have hF1 := firstArgmax_of_filter_gt hF
          show Except.ok (decideCorrection token m₁ results) = _
          rw [decideCorrection_eq hfind]
          unfold specSelect
          rw [hF1, hdc]
  exact ⟨hfirst, fun hne hacc2 => hne (hfirst hacc2)⟩

/-- Witness for C4 at a concrete input: scores a = 1, b = 5; "b" is accepted
at magnitude 3, and the theorem transports the acceptance down to
magnitude 2. -/
theorem C4_magnitude_antitone_witness :
    correct "[MASK]" abDict abProv15 "a" "x __MASK__ y" 3 = Except.ok "b" ∧
    correct "[MASK]" abDict abProv15 "a" "x __MASK__ y" 2 = Except.ok "b" := by
  have hs : ∀ s c r, r ∈ abProv15 s c → 0 ≤ r.score := by
    intro s c r hr
    simp [abProv15] at hr
    rcases hr with rfl | rfl <;> norm_num
  have h3 : correct "[MASK]" abDict abProv15 "a" "x __MASK__ y" 3 =
      Except.ok "b" := by
    have h1 : pyContains "x __MASK__ y" MASK = true := by decide
    simp [correct, check, in_confusion_sets, dictFind, abDict, abProv15,
      replace_generic_mask, h1, Except.map, decideCorrection, findTargetScore,
      correctLoop]
  exact ⟨h3,
    (C4_magnitude_antitone "[MASK]" abDict abProv15 "a" "x __MASK__ y" 2 3 "b"
      hs (by norm_num) (by decide)).1 h3⟩

/-! ### Claim C8 -/

/-- C8: the spec's concrete scenario (scores their = 0.50, there = 0.01,
magnitude 10, threshold 0.1).  The embedded `correct` — exactly like the
source — returns only the bare chosen token "their": its result carries no
certainty ratio and no ranked candidate list, although the repository's own
test `test_correct` unpacks three components (correction, certainty, ranked
list) from the return value of `correct`. -/
theorem C8_bare_token :
    correct "[MASK]" theirDict theirProv "there"
      "I want to buy __MASK__ cars." 10 = Except.ok "their" := by
  have h1 : pyContains "I want to buy __MASK__ cars." MASK = true := by decide
  simp [correct, check, in_confusion_sets, dictFind, theirDict, theirProv,
    replace_generic_mask, h1, Except.map, decideCorrection, findTargetScore,
    correctLoop]
  norm_num

/-! ### Claim C10 -/

lemma decideCorrection_range (token : String) (m : ℚ)
    (results : List ScoredResult) :
    decideCorrection token m results = token ∨
      decideCorrection token m results ∈
        results.map (fun r => r.token_str) := by
  by_cases hnil : results = []
  · left; simp [decideCorrection, hnil]
  · cases hfind : findTargetScore results token with
    | none => left; simp [decideCorrection, hnil, hfind]
    | some s₀ =>
      rw [decideCorrection_eq hfind]
      unfold specSelect
      cases hF : firstArgmax (results.filter (fun r =>
          decide (r.token_str ≠ token ∧ min (s₀ * m) 1 < r.score ∧
            s₀ < r.score))) with
      | none => left; rfl
      | some b =>
        right
        exact List.mem_map.mpr
          ⟨b, List.mem_of_mem_filter (firstArgmax_mem hF), rfl⟩

/-- C10: whatever the provider returns, the token chosen by `correct` is
either the original token itself or the word of one of the provider's scored
candidates for the query `correct` makes; it is never a word from nowhere. -/
theorem C10_result_range (mt : String) (cs : ConfusionDict) (p : Provider)
    (token masked_sentence : String) (magnitude : ℚ) (w : String)
    (h : correct mt cs p token masked_sentence magnitude = Except.ok w) :
    w = token ∨
      w ∈ (p (pyReplace masked_sentence MASK mt)
        ((dictFind cs token).getD [])).map (fun r => r.token_str) := by
  unfold correct check at h
  by_cases hmem : in_confusion_sets cs token = true
  · unfold replace_generic_mask at h
    by_cases hmask : pyContains masked_sentence MASK = true
    · simp [hmem, hmask, Except.map] at h
      rcases decideCorrection_range token magnitude
          (p (pyReplace masked_sentence MASK mt)
            ((dictFind cs token).getD [])) with h' | h'
      · left; rw [← h]; exact h'
      · right; rw [← h]; exact h'
    · exfalso
      simp [hmem, hmask, Except.map] at h
  · left
    simp [hmem, Except.map, decideCorrection] at h
    exact h.symm

/-- Witness for C10 at a concrete input: the chosen "b" is among the
provider's candidate words. -/
theorem C10_result_range_witness :
    ("b" : String) = "a" ∨
      "b" ∈ (abProv15 (pyReplace "x __MASK__ y" MASK "[MASK]")
        ((dictFind abDict "a").getD [])).map (fun r => r.token_str) := by
  apply C10_result_range "[MASK]" abDict abProv15 "a" "x __MASK__ y" 3 "b"
  have h1 : pyContains "x __MASK__ y" MASK = true := by decide
  simp [correct, check, in_confusion_sets, dictFind, abDict, abProv15,
    replace_generic_mask, h1, Except.map, decideCorrection, findTargetScore,
    correctLoop]

/-! ### Claim C6 -/

/-- C6: for declared groups that each keep at least two trimmed non-empty
words, registry construction succeeds, and any member w of group i that
belongs to no later group looks up to exactly the full cleaned group i
(including w itself) — so all members of a group share an identical candidate
list, and a word occurring in several groups is mapped by the group declared
last (last-write-wins). -/
theorem C6_registry (data : List (List String)) (i : Nat) (hi : i < data.length)
    (w : String)
    (hval : ∀ g ∈ data, 2 ≤ (cleanedOf g).length)
    (hw : w ∈ cleanedOf (data.get ⟨i, hi⟩))
    (hlast : ∀ j (hj : j < data.length), i < j →
      w ∉ cleanedOf (data.get ⟨j, hj⟩)) :
    load_confusion_sets data = Except.ok ((data.map entriesOf).flatten) ∧
    dictFind ((data.map entriesOf).flatten) w =
      some (cleanedOf (data.get ⟨i, hi⟩)) := by
  constructor
  · exact load_confusion_sets_ok (fun g hg => not_lt.mpr (hval g hg))
  · exact dictFind_flatten_last i hi hw hlast

/-- Witness for C6 at the repository's own confusion sets: "their" (in the
first group only) maps to the full cleaned first group. -/
theorem C6_registry_witness :
    load_confusion_sets exData = Except.ok ((exData.map entriesOf).flatten) ∧
    dictFind ((exData.map entriesOf).flatten) "their" =
      some (cleanedOf (exData.get ⟨0, by decide⟩)) := by
  apply C6_registry exData 0 (by decide) "their"
  · decide
  · decide
  · intro j hj hij
    have hj1 : j = 1 := by
      have : j < 2 := by simpa [exData] using hj
      omega
    subst hj1
    show "their" ∉ cleanedOf ["to", "too", "two"]
    decide

end RWSE
